import Mathlib

/-!
Verification of `qiskit_metal/analyses/quantization/lumped_capacitive.py`
(transmon Hamiltonian extraction pipeline) against its specification.

The Python source is shallowly embedded: real (float) arithmetic is modelled
over `ℚ`, numpy arrays over `List ℚ`, labeled DataFrames as a structure of
values plus row/column label lists, and raising code as `Except String`.
-/

namespace LumpedCapacitive

/-- Electron charge constant `e = 1.60217657e-19` from the module header. -/
def eQ : ℚ := 160217657 / 10 ^ 27

/-- Planck constant `h = 6.62606957e-34` from the module header. -/
def hQ : ℚ := 662606957 / 10 ^ 42

/-- Reduced Planck constant `hbar = 1.0545718e-34` from the module header. -/
def hbarQ : ℚ := 10545718 / 10 ^ 41

/-! ### Input validation of `extract_transmon_coupled_Noscillator` (lines 199-203)

```
if N < 0:
    raise ValueError('N must positive')
if len(capMatrix) != (N + 3):
    raise ValueError('Capacitance matrix is not the right size')
```
`N` is modelled as an integer and the matrix side length `lenC` as a natural
number. -/
def reducer_checks (N : ℤ) (lenC : ℕ) : Except String Unit :=
  if N < 0 then .error "N must positive"
  else if (lenC : ℤ) ≠ N + 3 then .error "Capacitance matrix is not the right size"
  else .ok ()

/-! ### Canonical node indices used by the reducer (lines 237-244)

```
ground_index = max([0, N - 1])
qubit_index = [ground_index + 1, ground_index + 2]
bus_index = np.zeros(N, dtype=int)
for ii in range(N):
    if ii == 0:
        bus_index[ii] = len(capMatrix) - 1
    else:
        bus_index[ii] = ii - 1
```
-/

/-- `ground_index = max([0, N - 1])`. -/
def ground_index (N : ℤ) : ℤ := max 0 (N - 1)

/-- `qubit_index = [ground_index + 1, ground_index + 2]`. -/
def qubit_index (N : ℤ) : List ℤ := [ground_index N + 1, ground_index N + 2]

/-- `bus_index[ii]`: the readout entry `ii = 0` is `len(capMatrix) - 1`, later
entries are `ii - 1`.  `lenC` is the side length of the capacitance matrix. -/
def bus_index (lenC : ℕ) (ii : ℕ) : ℤ :=
  if ii = 0 then (lenC : ℤ) - 1 else (ii : ℤ) - 1

/-! ### Hamiltonian construction in `levels_vs_ng_real_units` (lines 439-464)

`nmax = 40`, `dim = 2*nmax + 1 = 81`;
`nmat` is the diagonal charge-number matrix `nmat[ii,ii] = ii - nmax`;
`V = diag(-0.5*ones(dim-1), 1)`, then `V = V + V^T` (real, so the conjugate is
itself); `H = 4*Ec*(nmat - ng*eye(dim))**2 + EJ*V` where `**2` is numpy's
elementwise square. -/

def nmax : ℕ := 40

def dim : ℕ := 2 * nmax + 1

/-- Entry `(i, j)` of the diagonal charge-number matrix `nmat`. -/
def nmatE (i j : ℕ) : ℚ := if i = j then (i : ℚ) - (nmax : ℚ) else 0

/-- Entry `(i, j)` of the symmetrized hopping matrix `V + V^T`. -/
def vmatE (i j : ℕ) : ℚ :=
  (if j = i + 1 then -(1 / 2) else 0) + (if i = j + 1 then -(1 / 2) else 0)

/-- Entry `(i, j)` of `H = 4*Ec*(nmat - ng*eye)**2 + EJ*V` (elementwise square). -/
def Hmat (Ec EJ ng : ℚ) (i j : ℕ) : ℚ :=
  4 * Ec * (nmatE i j - ng * (if i = j then 1 else 0)) ^ 2 + EJ * vmatE i j

/-- The numpy Hermiticity test `np.array_equal(H, np.transpose(np.conj(H)))`
over the `dim × dim` entries (all entries are real, so conjugation is the
identity and the test compares `H` with its transpose). -/
def hermitian_ok (Ec EJ ng : ℚ) : Bool :=
  (List.range dim).all fun i =>
    (List.range dim).all fun j => Hmat Ec EJ ng i j == Hmat Ec EJ ng j i

/-- The guarded raise:
```
if (not np.array_equal(H, np.transpose(np.conj(H)))):
    raise ValueError('Matrix is not Hermitian')
```
-/
def levels_hermitian_check (Ec EJ ng : ℚ) : Except String Unit :=
  if hermitian_ok Ec EJ ng then .ok () else .error "Matrix is not Hermitian"

/-- `C = Cq * 1e-15; Ec = e**2 / 2 / C` (lines 435-437). -/
def Ec_of (Cq : ℚ) : ℚ := eQ ^ 2 / 2 / (Cq * (1 / 10 ^ 15))

/-- `IC = IC * 1e-9; varphi = hbar / 2 / e; EJ = IC * varphi` (lines 436, 453-454). -/
def EJ_of (IC : ℚ) : ℚ := (IC * (1 / 10 ^ 9)) * (hbarQ / 2 / eQ)

/-- `charge = np.linspace(-1., 1., N)`: the `i`-th offset-charge sample.
numpy's `linspace(-1, 1, N)` returns `[-1]` for `N = 1`. -/
def charge (N i : ℕ) : ℚ :=
  if N ≤ 1 then -1 else -1 + 2 * (i : ℚ) / ((N : ℚ) - 1)

/-- The Hamiltonian entries are symmetric in `(i, j)`. -/
theorem Hmat_symm (Ec EJ ng : ℚ) (i j : ℕ) :
    Hmat Ec EJ ng i j = Hmat Ec EJ ng j i := by
  unfold Hmat nmatE vmatE
  by_cases h : i = j
  · subst h; ring
  · have h' : ¬ j = i := fun hji => h hji.symm
    simp only [h, h', if_false]
    ring

/-- The numpy Hermiticity test always succeeds. -/
theorem hermitian_ok_true (Ec EJ ng : ℚ) : hermitian_ok Ec EJ ng = true := by
  unfold hermitian_ok
  rw [List.all_eq_true]
  intro i _
  rw [List.all_eq_true]
  intro j _
  exact beq_iff_eq.mpr (Hmat_symm Ec EJ ng i j)

/-! ### Eigenvalue post-processing in `levels_vs_ng_real_units` (lines 456-519)

The dense eigen-decomposition `np.linalg.eig(H)` is an external collaborator
(a black-box eigensolver returning eigenvalues in no guaranteed order), so the
post-processing is embedded parameterized by `spectra`, the list of per-sample
eigenvalue lists it returns.  For each grid sample the code does
```
sortIX = np.argsort(d); sorted_d = d[sortIX]
elvls[:, iindex] = sorted_d - sorted_d[0]
```
and finally
```
fqubitGHz = np.mean(elvls[1,] / h / 1e9)
anharMHz = np.mean(1000 * (elvls[2,]/h/1e9 - elvls[0,]/h/1e9
                           - 2*elvls[1,]/h/1e9 - elvls[0,]/h/1e9))
disp = np.max(-elvls[1,] / h + elvls[1, 0] / h)
```
-/

/-- `sorted_d = d[np.argsort(d)]`: the eigenvalue list sorted ascending. -/
def sorted_d (d : List ℚ) : List ℚ := List.insertionSort (· ≤ ·) d

/-- `sorted_d - sorted_d[0]`: one column of the level table. -/
def elvlsCol (d : List ℚ) : List ℚ :=
  (sorted_d d).map fun x => x - (sorted_d d).headD 0

/-- `elvls[k, j]`: level `k` at grid sample `j`. -/
def elvls (spectra : List (List ℚ)) (k j : ℕ) : ℚ :=
  (elvlsCol (spectra.getD j [])).getD k 0

/-- `np.mean` of a list. -/
def npMean (l : List ℚ) : ℚ := l.sum / l.length

/-- `np.max` of a list (the source only applies it to nonempty arrays). -/
def npMax : List ℚ → ℚ
  | [] => 0
  | x :: xs => xs.foldl max x

/-- `np.min` of a list (the source only applies it to nonempty arrays). -/
def npMin : List ℚ → ℚ
  | [] => 0
  | x :: xs => xs.foldl min x

/-- `fqubitGHz = np.mean(elvls[1,] / h / 1e9)` (line 514). -/
def fqubitGHz (s : List (List ℚ)) : ℚ :=
  npMean ((List.range s.length).map fun j => elvls s 1 j / hQ / 10 ^ 9)

/-- `anharMHz` (lines 515-516); note the source subtracts `elvls[0,]` twice. -/
def anharMHz (s : List (List ℚ)) : ℚ :=
  npMean ((List.range s.length).map fun j =>
    1000 * (elvls s 2 j / hQ / 10 ^ 9 - elvls s 0 j / hQ / 10 ^ 9 -
      2 * (elvls s 1 j / hQ / 10 ^ 9) - elvls s 0 j / hQ / 10 ^ 9))

/-- `disp = np.max(-elvls[1,] / h + elvls[1, 0] / h)` (line 518). -/
def disp (s : List (List ℚ)) : ℚ :=
  npMax ((List.range s.length).map fun j => -(elvls s 1 j) / hQ + elvls s 1 0 / hQ)

/-- Modelled from the spec's words, for comparison with `fqubitGHz`: the mean
over the grid samples of the level-1 energy, expressed in GHz. -/
def spec_fqubitGHz (s : List (List ℚ)) : ℚ :=
  npMean ((List.range s.length).map fun j => elvls s 1 j / hQ / 10 ^ 9)

/-- Modelled from the spec's words, for comparison with `anharMHz`: the mean
over the grid of `(level-2 − level-0 − 2·level-1)`, expressed in MHz. -/
def spec_anharMHz (s : List (List ℚ)) : ℚ :=
  npMean ((List.range s.length).map fun j =>
    1000 * ((elvls s 2 j - elvls s 0 j - 2 * elvls s 1 j) / hQ / 10 ^ 9))

/-- Modelled from the spec's words, for comparison with `disp`: the
peak-to-peak variation (maximum minus minimum) of the level-1 energy across
the grid, in the raw energy unit. -/
def spec_disp_ptp (s : List (List ℚ)) : ℚ :=
  npMax ((List.range s.length).map fun j => elvls s 1 j) -
    npMin ((List.range s.length).map fun j => elvls s 1 j)

/-! ### Total T1 combination (lines 356-363)

```
if N > 0:
    T1 = 1 / (np.sum(1 / T1bus))
else:
    T1 = 100
```
-/
def T1_total (N : ℤ) (T1bus : List ℚ) : ℚ :=
  if N > 0 then 1 / (T1bus.map fun t => 1 / t).sum else 100

/-! ## Claims C2, C3, C6, C7 -/

/-- C2: the reducer's validation accepts exactly the inputs with `0 ≤ N` and
matrix side length `N + 3`; it raises `ValueError` whenever `N < 0` or the
side length differs from `N + 3`. -/
theorem C2_reducer_validation (N : ℤ) (lenC : ℕ) :
    reducer_checks N lenC = .ok () ↔ 0 ≤ N ∧ (lenC : ℤ) = N + 3 := by
  unfold reducer_checks
  by_cases h1 : N < 0
  · simp [h1]
  · by_cases h2 : (lenC : ℤ) = N + 3 <;> simp [h1, h2] <;> try omega

/-- C2 witness: `N = 2` with a `5 × 5` matrix passes both checks, `N = -1`
and `N = 1` with a `3 × 3` matrix do not. -/
theorem C2_reducer_validation_witness :
    reducer_checks 2 5 = .ok () ∧ reducer_checks (-1) 5 ≠ .ok () ∧
      reducer_checks 1 3 ≠ .ok () := by
  refine ⟨(C2_reducer_validation 2 5).mpr (by decide), ?_, ?_⟩
  · intro h
    have := (C2_reducer_validation (-1) 5).mp h
    omega
  · intro h
    have := (C2_reducer_validation 1 3).mp h
    omega

/-- C3 counterexample: at `N = 1` (matrix side `4`), the claim places the
readout pad at index `N - 1 = 0`, the ground node at index `N = 1` and the
qubit pads at `2, 3`; the code instead puts the ground node at index `0`,
the qubit pads at `1, 2` and the readout pad at the last index `3`. -/
theorem C3_node_order_counterexample :
    ground_index 1 = 0 ∧ ground_index 1 ≠ 1 ∧
      qubit_index 1 = [1, 2] ∧ qubit_index 1 ≠ [2, 3] ∧
      bus_index 4 0 = 3 ∧ bus_index 4 0 ≠ 0 := by
  refine ⟨by decide, by decide, by decide, by decide, by decide, by decide⟩

/-- C3 amended: for every `N ≥ 1` with matrix side `N + 3`, the reducer reads
the bus pads at indices `0 .. N-2`, the ground node at index `N - 1`, the two
qubit pads at indices `N` and `N + 1`, and the readout pad at the last index
`N + 2` (the fixed order being
`{bus pads, ground, qubit pad 1, qubit pad 2, readout}`). -/
theorem C3_node_order_amended (N : ℤ) (hN : 1 ≤ N) :
    ground_index N = N - 1 ∧
      qubit_index N = [N, N + 1] ∧
      bus_index (Int.toNat (N + 3)) 0 = N + 2 ∧
      (∀ ii : ℕ, 1 ≤ ii → bus_index (Int.toNat (N + 3)) ii = (ii : ℤ) - 1) := by
  refine ⟨?_, ?_, ?_, ?_⟩
  · unfold ground_index; omega
  · unfold qubit_index ground_index
    have h : max 0 (N - 1) = N - 1 := by omega
    rw [h]
    have h1 : N - 1 + 1 = N := by ring
    have h2 : N - 1 + 2 = N + 1 := by ring
    rw [h1, h2]
  · unfold bus_index; simp; omega
  · intro ii hii
    unfold bus_index
    have : ¬ ii = 0 := by omega
    simp [this]

/-- C3 amended witness at `N = 2`: ground at `1`, qubit pads at `[2, 3]`,
readout at the last index `4`, bus pad `ii = 1` at `0`. -/
theorem C3_node_order_amended_witness :
    ground_index 2 = 1 ∧ qubit_index 2 = [2, 3] ∧
      bus_index (Int.toNat (2 + 3)) 0 = 4 ∧ bus_index (Int.toNat (2 + 3)) 1 = 0 := by
  obtain ⟨h1, h2, h3, h4⟩ := C3_node_order_amended 2 (by decide)
  exact ⟨h1, h2, h3, by simpa using h4 1 le_rfl⟩

/-- C6: for every capacitance `Cq`, critical current `IC` and offset-charge
sample of any grid, the constructed Hamiltonian equals its conjugate
transpose, so the `ValueError('Matrix is not Hermitian')` branch never
executes. -/
theorem C6_hermitian_branch_unreachable (Cq IC : ℚ) (N i : ℕ) :
    levels_hermitian_check (Ec_of Cq) (EJ_of IC) (charge N i) = .ok () := by
  unfold levels_hermitian_check
  rw [hermitian_ok_true]
  rfl

/-- C7: with `N = 0` and a `3 × 3` capacitance matrix the reducer's validation
passes, the nested Hermiticity check can never raise, and the total `T1` is
the fixed constant `100` (not a reciprocal sum, whatever the per-bus list). -/
theorem C7_zero_ports (T1bus : List ℚ) (Cq IC : ℚ) (Ngrid i : ℕ) :
    reducer_checks 0 3 = .ok () ∧
      levels_hermitian_check (Ec_of Cq) (EJ_of IC) (charge Ngrid i) = .ok () ∧
      T1_total 0 T1bus = 100 := by
  refine ⟨by rfl, ?_, by unfold T1_total; simp⟩
  unfold levels_hermitian_check
  rw [hermitian_ok_true]
  rfl

/-! ## Supporting lemmas for the level-table claims -/

theorem foldl_min_le_init (xs : List ℚ) : ∀ a : ℚ, xs.foldl min a ≤ a := by
  induction xs with
  | nil => intro a; exact le_rfl
  | cons x xs ih =>
    intro a
    calc (x :: xs).foldl min a = xs.foldl min (min a x) := rfl
    _ ≤ min a x := ih (min a x)
    _ ≤ a := min_le_left a x

theorem foldl_min_le_mem (xs : List ℚ) :
    ∀ (a x : ℚ), x ∈ xs → xs.foldl min a ≤ x := by
  induction xs with
  | nil => intro a x hx; cases hx
  | cons y ys ih =>
    intro a x hx
    rcases List.mem_cons.mp hx with h | h
    · subst h
      calc (x :: ys).foldl min a = ys.foldl min (min a x) := rfl
      _ ≤ min a x := foldl_min_le_init ys (min a x)
      _ ≤ x := min_le_right a x
    · exact ih (min a y) x h

theorem foldl_min_mem (xs : List ℚ) :
    ∀ a : ℚ, xs.foldl min a = a ∨ xs.foldl min a ∈ xs := by
  induction xs with
  | nil => intro a; left; rfl
  | cons y ys ih =>
    intro a
    rcases ih (min a y) with h | h
    · rcases min_choice a y with hm | hm
      · left
        show ys.foldl min (min a y) = a
        rw [h, hm]
      · right
        apply List.mem_cons.mpr
        left
        show ys.foldl min (min a y) = y
        rw [h, hm]
    · right
      exact List.mem_cons.mpr (Or.inr h)

theorem npMin_mem (l : List ℚ) (hl : l ≠ []) : npMin l ∈ l := by
  match l with
  | [] => exact absurd rfl hl
  | y :: ys =>
    rcases foldl_min_mem ys y with h | h
    · exact List.mem_cons.mpr (Or.inl h)
    · exact List.mem_cons.mpr (Or.inr h)

theorem npMin_le (l : List ℚ) (x : ℚ) (hx : x ∈ l) : npMin l ≤ x := by
  match l with
  | [] => cases hx
  | y :: ys =>
    rcases List.mem_cons.mp hx with h | h
    · subst h; exact foldl_min_le_init ys x
    · exact foldl_min_le_mem ys y x h

theorem sorted_d_perm (d : List ℚ) : (sorted_d d).Perm d :=
  List.perm_insertionSort (· ≤ ·) d

theorem sorted_d_ne_nil {d : List ℚ} (hd : d ≠ []) : sorted_d d ≠ [] := by
  intro h
  have := (sorted_d_perm d).length_eq
  rw [h] at this
  exact hd (List.eq_nil_of_length_eq_zero this.symm)

/-- The first sorted eigenvalue is the smallest eigenvalue of the sample. -/
theorem sorted_d_headD_min (d : List ℚ) (hd : d ≠ []) :
    (sorted_d d).headD 0 = npMin d := by
  obtain ⟨y, ys, hs⟩ := List.exists_cons_of_ne_nil (sorted_d_ne_nil hd)
  have hsort : List.Sorted (· ≤ ·) (sorted_d d) := List.sorted_insertionSort _ d
  rw [hs] at hsort
  rw [hs]
  show y = npMin d
  apply le_antisymm
  · have hmem : npMin d ∈ sorted_d d := (sorted_d_perm d).symm.subset (npMin_mem d hd)
    rw [hs] at hmem
    rcases List.mem_cons.mp hmem with h | h
    · rw [h]
    · exact (List.sorted_cons.mp hsort).1 _ h
  · apply npMin_le
    have : y ∈ sorted_d d := by rw [hs]; exact List.mem_cons_self y ys
    exact (sorted_d_perm d).subset this

/-- Level 0 of the table is exactly zero for a sample with a nonempty
eigenvalue list. -/
theorem elvls_level0_eq_zero (s : List (List ℚ)) (j : ℕ)
    (hne : s.getD j [] ≠ []) : elvls s 0 j = 0 := by
  obtain ⟨y, ys, hs⟩ := List.exists_cons_of_ne_nil (sorted_d_ne_nil hne)
  unfold elvls elvlsCol
  rw [hs]
  simp

theorem foldl_max_sub_mul (c k : ℚ) (hk : 0 ≤ k) (xs : List ℚ) :
    ∀ a : ℚ, (xs.map fun x => (c - x) * k).foldl max ((c - a) * k) =
      (c - xs.foldl min a) * k := by
  induction xs with
  | nil => intro a; rfl
  | cons x xs ih =>
    intro a
    simp only [List.map_cons, List.foldl_cons]
    rw [← max_mul_of_nonneg _ _ hk, max_sub_sub_left, ih (min a x)]

theorem npMax_map_sub_mul (l : List ℚ) (hl : l ≠ []) (c k : ℚ) (hk : 0 ≤ k) :
    npMax (l.map fun x => (c - x) * k) = (c - npMin l) * k := by
  match l with
  | [] => exact absurd rfl hl
  | y :: ys =>
    show (ys.map fun x => (c - x) * k).foldl max ((c - y) * k) = _
    rw [foldl_max_sub_mul c k hk ys y]
    rfl

theorem hQ_pos : 0 < hQ := by norm_num [hQ]

/-! ## Claims C4 and C5 -/

/-- C5: for every grid sample whose eigenvalue list (the external
eigensolver's output, of length `dim = 81` in the source) is nonempty, the
level table's level-0 entry is exactly zero, and the value subtracted from
every sorted eigenvalue — `sorted_d[0]` — is that sample's smallest
eigenvalue. -/
theorem C5_ground_level_zero (s : List (List ℚ)) (j : ℕ)
    (hne : s.getD j [] ≠ []) :
    elvls s 0 j = 0 ∧
      (sorted_d (s.getD j [])).headD 0 = npMin (s.getD j []) :=
  ⟨elvls_level0_eq_zero s j hne, sorted_d_headD_min _ hne⟩

/-- C5 witness: concrete spectra `[[3, 1, 2]]`, sample `0`: level 0 is `0`
and the subtracted reference is the smallest eigenvalue `1`. -/
theorem C5_ground_level_zero_witness :
    elvls [[3, 1, 2]] 0 0 = 0 ∧
      (sorted_d ([[(3 : ℚ), 1, 2]].getD 0 [])).headD 0 = npMin ([[(3 : ℚ), 1, 2]].getD 0 []) :=
  C5_ground_level_zero [[3, 1, 2]] 0 (by decide)

/-- C4 counterexample: for the eigensolver outputs `[[0,1,9],[0,3,9],[0,2,9]]`
(level-1 energies `1, 3, 2` across three grid samples), the code's `disp` is
`0` — the first-sample level-1 energy minus the grid minimum, over `h` — while
the claimed peak-to-peak variation (max minus min) of the level-1 energy is
`2 ≠ 0`. -/
theorem C4_dispersion_counterexample :
    disp [[0, 1, 9], [0, 3, 9], [0, 2, 9]] = 0 ∧
      spec_disp_ptp [[0, 1, 9], [0, 3, 9], [0, 2, 9]] = 2 ∧
      disp [[0, 1, 9], [0, 3, 9], [0, 2, 9]] ≠
        spec_disp_ptp [[0, 1, 9], [0, 3, 9], [0, 2, 9]] := by
  have e0 : elvls [[0, 1, 9], [0, 3, 9], [0, 2, 9]] 1 0 = 1 := by
    norm_num [elvls, elvlsCol, sorted_d, List.insertionSort, List.orderedInsert,
      List.getD]
  have e1 : elvls [[0, 1, 9], [0, 3, 9], [0, 2, 9]] 1 1 = 3 := by
    norm_num [elvls, elvlsCol, sorted_d, List.insertionSort, List.orderedInsert,
      List.getD]
  have e2 : elvls [[0, 1, 9], [0, 3, 9], [0, 2, 9]] 1 2 = 2 := by
    norm_num [elvls, elvlsCol, sorted_d, List.insertionSort, List.orderedInsert,
      List.getD]
  have hrange : List.range ([[(0 : ℚ), 1, 9], [0, 3, 9], [0, 2, 9]].length) = [0, 1, 2] := by
    decide
  have hd : disp [[0, 1, 9], [0, 3, 9], [0, 2, 9]] = 0 := by
    unfold disp
    rw [hrange]
    simp only [List.map_cons, List.map_nil]
    rw [e0, e1, e2]
    show max (max (-1 / hQ + 1 / hQ) (-3 / hQ + 1 / hQ)) (-2 / hQ + 1 / hQ) = 0
    have ha : -(1 : ℚ) / hQ + 1 / hQ = 0 := by ring
    have hb : -(3 : ℚ) / hQ + 1 / hQ = -2 / hQ := by ring
    have hc : -(2 : ℚ) / hQ + 1 / hQ = -1 / hQ := by ring
    rw [ha, hb, hc,
      max_eq_left (show (-2 : ℚ) / hQ ≤ 0 by rw [hQ]; norm_num),
      max_eq_left (show (-1 : ℚ) / hQ ≤ 0 by rw [hQ]; norm_num)]
  have hp : spec_disp_ptp [[0, 1, 9], [0, 3, 9], [0, 2, 9]] = 2 := by
    unfold spec_disp_ptp
    rw [hrange]
    simp only [List.map_cons, List.map_nil]
    rw [e0, e1, e2]
    show max (max 1 3) 2 - min (min 1 3) 2 = 2
    rw [max_eq_right (show (1 : ℚ) ≤ 3 by norm_num),
      max_eq_left (show (2 : ℚ) ≤ 3 by norm_num),
      min_eq_left (show (1 : ℚ) ≤ 3 by norm_num),
      min_eq_left (show (1 : ℚ) ≤ 2 by norm_num)]
    norm_num
  refine ⟨hd, hp, by rw [hd, hp]; norm_num⟩

/-- C4 amended: for every family of per-sample eigenvalue lists (all nonempty,
as the eigensolver's `dim = 81` outputs are), (1) the returned qubit frequency
is the mean over the grid of the level-1 energy in GHz, (2) the returned
anharmonicity is the mean over the grid of `(level-2 − level-0 − 2·level-1)`
in MHz, and (3) the returned charge dispersion is the level-1 energy at the
first grid sample minus the minimum over the grid of the level-1 energy,
divided by `h` (hence in Hz) — which equals the peak-to-peak variation only
when the level-1 energy is maximal at the first sample. -/
theorem C4_solver_outputs_amended (s : List (List ℚ))
    (hne : ∀ d ∈ s, d ≠ []) :
    fqubitGHz s = spec_fqubitGHz s ∧
      anharMHz s = spec_anharMHz s ∧
      disp s = (elvls s 1 0 -
        npMin ((List.range s.length).map fun j => elvls s 1 j)) / hQ := by
  refine ⟨rfl, ?_, ?_⟩
  · unfold anharMHz spec_anharMHz
    congr 1
    apply List.map_congr_left
    intro j hj
    have hj' : j < s.length := List.mem_range.mp hj
    have hrow : s.getD j [] ≠ [] := by
      rw [List.getD_eq_getElem s [] hj']
      exact hne _ (List.getElem_mem hj')
    rw [elvls_level0_eq_zero s j hrow]
    ring
  · match s with
    | [] =>
      simp [disp, elvls, elvlsCol, sorted_d, npMax, npMin, List.getD]
    | r :: rs =>
      have hlen : (r :: rs).length = rs.length + 1 := rfl
      have hmap :
          ((List.range (r :: rs).length).map fun j =>
              -(elvls (r :: rs) 1 j) / hQ + elvls (r :: rs) 1 0 / hQ) =
            ((List.range (r :: rs).length).map fun j => elvls (r :: rs) 1 j).map
              fun x => (elvls (r :: rs) 1 0 - x) * (1 / hQ) := by
        rw [List.map_map]
        apply List.map_congr_left
        intro j _
        show -(elvls (r :: rs) 1 j) / hQ + elvls (r :: rs) 1 0 / hQ =
          (elvls (r :: rs) 1 0 - elvls (r :: rs) 1 j) * (1 / hQ)
        ring
      unfold disp
      rw [hmap, npMax_map_sub_mul _ (by simp) _ _
        (le_of_lt (one_div_pos.mpr hQ_pos))]
      ring

/-- C4 amended witness: the amended statement instantiated at the concrete
spectra `[[0, 1, 5], [0, 2, 5], [0, 4, 5]]`, whose rows are all nonempty. -/
theorem C4_solver_outputs_amended_witness :
    (∀ d ∈ [[(0 : ℚ), 1, 5], [0, 2, 5], [0, 4, 5]], d ≠ []) ∧
      (fqubitGHz [[0, 1, 5], [0, 2, 5], [0, 4, 5]] =
          spec_fqubitGHz [[0, 1, 5], [0, 2, 5], [0, 4, 5]] ∧
        anharMHz [[0, 1, 5], [0, 2, 5], [0, 4, 5]] =
          spec_anharMHz [[0, 1, 5], [0, 2, 5], [0, 4, 5]] ∧
        disp [[0, 1, 5], [0, 2, 5], [0, 4, 5]] =
          (elvls [[0, 1, 5], [0, 2, 5], [0, 4, 5]] 1 0 -
            npMin ((List.range ([[(0 : ℚ), 1, 5], [0, 2, 5], [0, 4, 5]].length)).map
              fun j => elvls [[0, 1, 5], [0, 2, 5], [0, 4, 5]] 1 j)) / hQ) :=
  ⟨by decide, C4_solver_outputs_amended [[0, 1, 5], [0, 2, 5], [0, 4, 5]] (by decide)⟩

/-! ### `readin_q3d_matrix` marker splitting (lines 649-666)

```
text = Path(path).read_text()
s1 = text.split('Capacitance Matrix')
assert len(s1) == 2, "Copuld not split text to `Capacitance Matrix`"
s2 = s1[1].split('Conductance Matrix')
df_cmat = pd.read_csv(io.StringIO(s2[0].strip()), ...)
if len(s2) > 1: df_cond = pd.read_csv(io.StringIO(s2[1].strip()), ...)
else: df_cond = None
```
Python's `str.split(sep)` with a nonempty separator splits on leftmost,
non-overlapping occurrences; it is embedded as `splitOnC` over `List Char`.
The CSV parsing of each block is an external collaborator; the embedding
returns the raw text blocks instead.
-/

/-- Python `text.split(sep)` for a nonempty separator (for an empty separator
the guard makes each character its own non-match, matching no source call). -/
def splitOnC (sep : List Char) (text : List Char) : List (List Char) :=
  match text with
  | [] => [[]]
  | c :: rest =>
    if h : sep.isPrefixOf (c :: rest) ∧ sep ≠ [] then
      [] :: splitOnC sep ((c :: rest).drop sep.length)
    else
      (splitOnC sep rest).modifyHead fun l => c :: l
termination_by text.length
decreasing_by
· simp only [List.length_drop, List.length_cons]
  have hsep : 1 ≤ sep.length := List.length_pos.mpr h.2
  omega
· simp only [List.length_cons]
  omega

/-- The number of leftmost non-overlapping occurrences of `sep` in `text`
(so `text.split(sep)` has `countOcc sep text + 1` pieces). -/
def countOcc (sep : List Char) (text : List Char) : ℕ :=
  match text with
  | [] => 0
  | c :: rest =>
    if h : sep.isPrefixOf (c :: rest) ∧ sep ≠ [] then
      countOcc sep ((c :: rest).drop sep.length) + 1
    else
      countOcc sep rest
termination_by text.length
decreasing_by
· simp only [List.length_drop, List.length_cons]
  have hsep : 1 ≤ sep.length := List.length_pos.mpr h.2
  omega
· simp only [List.length_cons]
  omega

/-- The literal marker `'Capacitance Matrix'`. -/
def capMarker : List Char :=
  ['C', 'a', 'p', 'a', 'c', 'i', 't', 'a', 'n', 'c', 'e', ' ',
   'M', 'a', 't', 'r', 'i', 'x']

/-- The literal marker `'Conductance Matrix'`. -/
def condMarker : List Char :=
  ['C', 'o', 'n', 'd', 'u', 'c', 't', 'a', 'n', 'c', 'e', ' ',
   'M', 'a', 't', 'r', 'i', 'x']

/-- `readin_q3d_matrix` up to the external CSV parser: the `assert` on the
`'Capacitance Matrix'` split, then the split of the tail on
`'Conductance Matrix'`, returning the capacitance block text and the optional
conductance block text. -/
def readin_q3d_matrixE (text : List Char) :
    Except String (List Char × Option (List Char)) :=
  let s1 := splitOnC capMarker text
  if s1.length = 2 then
    let s2 := splitOnC condMarker (s1.getD 1 [])
    .ok (s2.getD 0 [], if s2.length > 1 then some (s2.getD 1 []) else none)
  else .error "Copuld not split text to Capacitance Matrix"

theorem splitOnC_length (sep : List Char) :
    ∀ (n : ℕ) (text : List Char), text.length ≤ n →
      (splitOnC sep text).length = countOcc sep text + 1 := by
  intro n
  induction n with
  | zero =>
    intro text h
    match text with
    | [] => simp [splitOnC, countOcc]
  | succ n ih =>
    intro text h
    match text with
    | [] => simp [splitOnC, countOcc]
    | c :: rest =>
      rw [splitOnC, countOcc]
      by_cases hc : sep.isPrefixOf (c :: rest) ∧ sep ≠ []
      · rw [dif_pos hc, dif_pos hc]
        simp only [List.length_cons]
        have hsep : 1 ≤ sep.length := List.length_pos.mpr hc.2
        have hdrop : ((c :: rest).drop sep.length).length ≤ n := by
          simp only [List.length_drop, List.length_cons]
          simp only [List.length_cons] at h
          omega
        rw [ih _ hdrop]
      · rw [dif_neg hc, dif_neg hc, List.length_modifyHead]
        apply ih rest
        simp only [List.length_cons] at h
        omega

/-- C8: the loader succeeds (and goes on to parse the capacitance block and
the optional conductance block) exactly when the literal marker
`'Capacitance Matrix'` occurs exactly once in the file text; when the marker
is missing or duplicated the `assert` raises. -/
theorem C8_marker_validation (text : List Char) :
    (∃ v, readin_q3d_matrixE text = .ok v) ↔ countOcc capMarker text = 1 := by
  unfold readin_q3d_matrixE
  have h := splitOnC_length capMarker text.length text le_rfl
  by_cases hc : (splitOnC capMarker text).length = 2
  · simp only [hc, if_pos]
    constructor
    · intro _; omega
    · intro _; exact ⟨_, rfl⟩
  · simp only [hc, if_neg, if_false]
    constructor
    · rintro ⟨v, hv⟩; cases hv
    · intro h1; omega

/-! ### `readin_q3d_matrix_m` (lines 685-701)

```
text = Path(path).read_text()
match = re.findall(r'capMatrix (.*?)]', text, re.DOTALL)
if match:
    match = match[0].strip('= [').strip(']').strip('\n')
    dfC = pd.read_csv(io.StringIO(match), skipinitialspace=True, header=None)
return dfC
```
When `findall` finds nothing, the `if` body never runs and the bare
`return dfC` raises `UnboundLocalError` (the local `dfC` was never assigned);
this is embedded as the `.error` branch.  A match of the regex
`capMatrix (.*?)]` (with DOTALL) at some position is an occurrence of the
literal `'capMatrix '` followed, anywhere later, by a `']'`; the lazy group
captures the characters strictly between them.  The strip/CSV post-processing
of the matched group is an external collaborator; the embedding returns the
captured group text.
-/

/-- The literal `'capMatrix '` head of the regex. -/
def capKey : List Char := ['c', 'a', 'p', 'M', 'a', 't', 'r', 'i', 'x', ' ']

/-- The lazy group `(.*?)]`: the characters before the first `']'`, or `none`
if no `']'` follows. -/
def takeUntilRB (l : List Char) : Option (List Char) :=
  if l.contains ']' then some (l.takeWhile fun c => !(c == ']')) else none

/-- The first match's captured group of `re.findall(r'capMatrix (.*?)]', text,
re.DOTALL)`, scanning left to right. -/
def findCapGroup : List Char → Option (List Char)
  | [] => none
  | c :: rest =>
    if capKey.isPrefixOf (c :: rest) then
      match takeUntilRB ((c :: rest).drop capKey.length) with
      | some g => some g
      | none => findCapGroup rest
    else findCapGroup rest

/-- `readin_q3d_matrix_m` up to the external CSV parser: the captured group on
a match, the `UnboundLocalError` of the bare `return dfC` otherwise. -/
def readin_q3d_matrix_m (text : List Char) : Except String (List Char) :=
  match findCapGroup text with
  | some g => .ok g
  | none => .error "local variable dfC referenced before assignment"

/-- Modelled from the spec's words: the text contains a segment matching
`capMatrix (.*?)]` (with DOTALL) iff it contains the literal `'capMatrix '`
with a `']'` somewhere after it. -/
def matchesCapPattern (text : List Char) : Prop :=
  ∃ a b c : List Char, text = a ++ capKey ++ b ++ [']'] ++ c

theorem findCapGroup_eq_none {text : List Char}
    (h : ¬ matchesCapPattern text) : findCapGroup text = none := by
  induction text with
  | nil => rfl
  | cons c rest ih =>
    have hrest : ¬ matchesCapPattern rest := by
      rintro ⟨a, b, c2, hdec⟩
      exact h ⟨c :: a, b, c2, by rw [hdec]; rfl⟩
    rw [findCapGroup]
    by_cases hp : capKey.isPrefixOf (c :: rest)
    · have hpre : capKey <+: (c :: rest) := by
        exact (List.isPrefixOf_iff_prefix).mp hp
      obtain ⟨t, ht⟩ := hpre
      have hdropt : (c :: rest).drop capKey.length = t := by
        rw [← ht, List.drop_left]
      by_cases hrb : t.contains ']'
      · exfalso
        have hmem : ']' ∈ t := by simpa using hrb
        obtain ⟨s1, s2, hs⟩ := List.append_of_mem hmem
        exact h ⟨[], s1, s2, by
          rw [← ht, hs]
          simp⟩
      · rw [if_pos hp]
        have : takeUntilRB ((c :: rest).drop capKey.length) = none := by
          rw [hdropt]
          unfold takeUntilRB
          rw [if_neg (by simpa using hrb)]
        rw [this]
        exact ih hrest
    · rw [if_neg hp]
      exact ih hrest

/-- C10: on input text with no segment matching `capMatrix (.*?)]`, the
`.m`-file loader raises (`dfC` is never assigned, so the `return` statement
fails); it never returns a value for such input. -/
theorem C10_m_loader_unbound_local (text : List Char)
    (h : ¬ matchesCapPattern text) :
    readin_q3d_matrix_m text =
      .error "local variable dfC referenced before assignment" := by
  unfold readin_q3d_matrix_m
  rw [findCapGroup_eq_none h]

/-- C10 witness: the two-character text `"hi"` matches nowhere (it is shorter
than the literal `'capMatrix '`), and the loader indeed errors on it. -/
theorem C10_m_loader_unbound_local_witness :
    readin_q3d_matrix_m ['h', 'i'] =
      .error "local variable dfC referenced before assignment" :=
  C10_m_loader_unbound_local ['h', 'i'] (by
    rintro ⟨a, b, c2, hdec⟩
    have hlen := congrArg List.length hdec
    simp [capKey] at hlen
    omega)

/-! ### Basis reordering (lines 750-784)

```
def move_index_to(i_from, i_to, len_):
    idxs = np.arange(0, len_)
    idxs = np.delete(idxs, i_from)
    return np.insert(idxs, i_to, i_from)

def df_reorder_matrix_basis(df, i_from, i_to):
    arr = df.values
    idx = move_index_to(i_from, i_to, len(arr))
    arr = arr[np.ix_(idx, idx)]
    return pd.DataFrame(arr, columns=df.columns[idx], index=df.index[idx])
```
`np.delete(arr, obj)` drops the entries whose position is listed in `obj`;
`np.insert(arr, pos, vals)` with a scalar position inserts the values as a
contiguous block before position `pos`; `arr[np.ix_(idx, idx)]` builds the
matrix whose `(a, b)` entry is `arr[idx[a], idx[b]]`.
-/

/-- `np.delete(arr, obj)`. -/
def npDelete {α : Type} (arr : List α) (obj : List ℕ) : List α :=
  (List.range arr.length).filterMap fun i =>
    if obj.contains i then none else arr[i]?

/-- `np.insert(arr, pos, vals)` with a scalar insert position. -/
def npInsertBlock {α : Type} (arr : List α) (pos : ℕ) (vals : List α) : List α :=
  arr.take pos ++ vals ++ arr.drop pos

/-- `move_index_to(i_from, i_to, len_)`. -/
def move_index_to (i_from : List ℕ) (i_to : ℕ) (len_ : ℕ) : List ℕ :=
  npInsertBlock (npDelete (List.range len_) i_from) i_to i_from

/-- A labeled square numeric table (the pandas DataFrame of the matrix). -/
structure DFrame where
  values : List (List ℚ)
  index : List String
  columns : List String
deriving DecidableEq

/-- `l[idx]`: numpy fancy indexing of a 1-d array by an index list. -/
def reorderL {α : Type} (idx : List ℕ) (l : List α) (d : α) : List α :=
  idx.map fun a => l.getD a d

/-- `df_reorder_matrix_basis(df, i_from, i_to)`. -/
def df_reorder_matrix_basis (df : DFrame) (i_from : List ℕ) (i_to : ℕ) : DFrame :=
  { values := (move_index_to i_from i_to df.values.length).map fun a =>
      reorderL (move_index_to i_from i_to df.values.length) (df.values.getD a []) 0
    index := reorderL (move_index_to i_from i_to df.values.length) df.index ""
    columns := reorderL (move_index_to i_from i_to df.values.length) df.columns "" }

/-! ### Supporting lemmas: `move_index_to` produces a permutation of
`range n`, and composing a reorder with the reorder along the positional
inverse restores the list. -/

theorem filterMap_if_some (obj : List ℕ) (f : ℕ → Option ℕ) :
    ∀ l : List ℕ, (∀ i ∈ l, f i = some i) →
      (l.filterMap fun i => if obj.contains i then none else f i) =
        l.filter fun i => !(obj.contains i) := by
  intro l
  induction l with
  | nil => intro _; rfl
  | cons a l ih =>
    intro hf
    by_cases h : obj.contains a
    · rw [List.filterMap_cons, if_pos h, List.filter_cons_of_neg (by simpa using h)]
      exact ih fun i hi => hf i (List.mem_cons_of_mem a hi)
    · rw [List.filterMap_cons, if_neg h, hf a (List.mem_cons_self a l),
        List.filter_cons_of_pos (by simpa using h)]
      rw [ih fun i hi => hf i (List.mem_cons_of_mem a hi)]

theorem npDelete_range (n : ℕ) (obj : List ℕ) :
    npDelete (List.range n) obj =
      (List.range n).filter fun i => !(obj.contains i) := by
  unfold npDelete
  rw [List.length_range]
  apply filterMap_if_some
  intro i hi
  exact List.getElem?_range (List.mem_range.mp hi)

theorem move_index_to_perm (i_from : List ℕ) (i_to n : ℕ)
    (hnd : i_from.Nodup) (hlt : ∀ x ∈ i_from, x < n) :
    (move_index_to i_from i_to n).Perm (List.range n) := by
  unfold move_index_to npInsertBlock
  rw [npDelete_range]
  set D := (List.range n).filter fun i => !(i_from.contains i) with hD
  have hsplit : (D.take i_to ++ i_from ++ D.drop i_to).Perm (i_from ++ D) := by
    have h1 : ((D.take i_to ++ i_from) ++ D.drop i_to).Perm
        ((i_from ++ D.take i_to) ++ D.drop i_to) :=
      List.Perm.append_right _ List.perm_append_comm
    have h2 : (i_from ++ D.take i_to) ++ D.drop i_to = i_from ++ D := by
      rw [List.append_assoc, List.take_append_drop]
    rw [← h2]
    exact h1
  have hfrom : i_from.Perm ((List.range n).filter fun i => i_from.contains i) := by
    apply List.perm_of_nodup_nodup_toFinset_eq hnd ((List.nodup_range n).filter _)
    ext a
    simp only [List.mem_toFinset, List.mem_filter, List.mem_range]
    constructor
    · intro ha
      exact ⟨hlt a ha, by simpa using ha⟩
    · rintro ⟨-, ha⟩
      simpa using ha
  exact hsplit.trans ((hfrom.append_right _).trans (List.filter_append_perm _ _))

/-- The positional inverse of a permutation list `p` of `range n`. -/
def invPerm (p : List ℕ) (n : ℕ) : List ℕ :=
  (List.range n).map fun v => List.indexOf v p

theorem invPerm_length (p : List ℕ) (n : ℕ) : (invPerm p n).length = n := by
  simp [invPerm]

theorem invPerm_lt (p : List ℕ) (n : ℕ) (hperm : p.Perm (List.range n)) :
    ∀ x ∈ invPerm p n, x < n := by
  intro x hx
  have hplen : p.length = n := by rw [hperm.length_eq, List.length_range]
  obtain ⟨v, hv, rfl⟩ := List.mem_map.mp hx
  have hvp : v ∈ p := hperm.mem_iff.mpr hv
  have := List.indexOf_lt_length.mpr hvp
  omega

theorem invPerm_nodup (p : List ℕ) (n : ℕ) (hperm : p.Perm (List.range n)) :
    (invPerm p n).Nodup := by
  apply List.Nodup.map_on _ (List.nodup_range n)
  intro x hx y hy hxy
  have hxp : x ∈ p := hperm.mem_iff.mpr hx
  have hyp : y ∈ p := hperm.mem_iff.mpr hy
  have hbx : List.indexOf x p < p.length := List.indexOf_lt_length.mpr hxp
  have hby : List.indexOf y p < p.length := List.indexOf_lt_length.mpr hyp
  have h1 : p.getD (List.indexOf x p) 0 = x := by
    rw [List.getD_eq_getElem p 0 hbx]
    exact List.getElem_indexOf hbx
  have h2 : p.getD (List.indexOf y p) 0 = y := by
    rw [List.getD_eq_getElem p 0 hby]
    exact List.getElem_indexOf hby
  have h2' : p.getD (List.indexOf x p) 0 = y := by rw [hxy]; exact h2
  exact h1.symm.trans h2'

theorem invPerm_comp (p : List ℕ) (n : ℕ) (hperm : p.Perm (List.range n)) :
    ∀ i, i < n → p.getD ((invPerm p n).getD i 0) 0 = i := by
  intro i hi
  have hqlen : (invPerm p n).length = n := invPerm_length p n
  have hiq : i < (invPerm p n).length := by omega
  have e1 : (invPerm p n).getD i 0 = List.indexOf i p := by
    rw [List.getD_eq_getElem _ 0 hiq]
    simp [invPerm]
  have hip : i ∈ p := hperm.mem_iff.mpr (List.mem_range.mpr hi)
  have hidxlt : List.indexOf i p < p.length := List.indexOf_lt_length.mpr hip
  rw [e1, List.getD_eq_getElem p 0 hidxlt]
  exact List.getElem_indexOf hidxlt

theorem invPerm_surj (p : List ℕ) (n : ℕ) (hperm : p.Perm (List.range n)) :
    ∀ j, j < n → j ∈ invPerm p n := by
  intro j hj
  have hpnodup : p.Nodup := hperm.nodup_iff.mpr (List.nodup_range n)
  have hplen : p.length = n := by rw [hperm.length_eq, List.length_range]
  have hjp : j < p.length := by omega
  have hidx : List.indexOf p[j] p = j := List.indexOf_getElem hpnodup j hjp
  apply List.mem_map.mpr
  refine ⟨p[j], ?_, hidx⟩
  exact hperm.subset (List.getElem_mem hjp)

/-- Moving every position of `range n` (as a source list) to destination `0`
is the identity: the delete empties the array and the insert rebuilds it. -/
theorem move_index_to_all (l : List ℕ) (n : ℕ) (hall : ∀ j, j < n → j ∈ l) :
    move_index_to l 0 n = l := by
  unfold move_index_to npInsertBlock
  rw [npDelete_range]
  have hnil : ((List.range n).filter fun i => !(l.contains i)) = [] := by
    rw [List.filter_eq_nil_iff]
    intro a ha
    simp [hall a (List.mem_range.mp ha)]
  rw [hnil]
  simp

/-- Reordering along `p` then along its positional inverse `q` restores
the list. -/
theorem reorder_reorder_eq {α : Type} (p q : List ℕ) (n : ℕ) (l : List α)
    (d : α) (hp : p.length = n) (hq : q.length = n) (hl : l.length = n)
    (hqlt : ∀ x ∈ q, x < n)
    (hcomp : ∀ i, i < n → p.getD (q.getD i 0) 0 = i) :
    reorderL q (reorderL p l d) d = l := by
  unfold reorderL
  apply List.ext_getElem
  · simp [hq, hl]
  · intro i h1 h2
    have hi : i < n := by
      simp only [List.length_map] at h1
      omega
    have hiq : i < q.length := by omega
    have hmaplen : (List.map (fun b => l.getD b d) p).length = n := by simp [hp]
    rw [List.getElem_map]
    have ha : q[i] < n := hqlt _ (List.getElem_mem hiq)
    have ha' : q[i] < (List.map (fun b => l.getD b d) p).length := by omega
    rw [List.getD_eq_getElem _ d ha', List.getElem_map]
    have hap : q[i] < p.length := by omega
    have e1 : q.getD i 0 = q[i] := List.getD_eq_getElem q 0 hiq
    have e2 : p.getD q[i] 0 = p[q[i]] := List.getD_eq_getElem p 0 hap
    have e3 : p[q[i]] = i := by
      rw [← e2, ← e1]
      exact hcomp i hi
    rw [e3]
    exact List.getD_eq_getElem l d (by omega)

theorem dframe_ext (A B : DFrame) (h1 : A.values = B.values)
    (h2 : A.index = B.index) (h3 : A.columns = B.columns) : A = B := by
  cases A
  cases B
  simp only [DFrame.mk.injEq]
  exact ⟨h1, h2, h3⟩

/-- C1: for every square labeled matrix and every list of valid, distinct
source indices `i_from` with a valid destination index `i_to`, there are
valid source/destination arguments (those of the inverse permutation) whose
reorder, applied to the reordered matrix, restores the matrix
entry-for-entry together with both label lists in their original order. -/
theorem C1_reorder_roundtrip (df : DFrame) (i_from : List ℕ) (i_to : ℕ)
    (hrow : ∀ r ∈ df.values, r.length = df.values.length)
    (hidx : df.index.length = df.values.length)
    (hcol : df.columns.length = df.values.length)
    (hnd : i_from.Nodup)
    (hlt : ∀ x ∈ i_from, x < df.values.length)
    (hto : i_to ≤ df.values.length - i_from.length) :
    ∃ (j_from : List ℕ) (j_to : ℕ),
      j_from.Nodup ∧ (∀ x ∈ j_from, x < df.values.length) ∧
        j_to ≤ df.values.length - j_from.length ∧
        df_reorder_matrix_basis (df_reorder_matrix_basis df i_from i_to)
          j_from j_to = df := by
  have hperm : (move_index_to i_from i_to df.values.length).Perm
      (List.range df.values.length) :=
    move_index_to_perm i_from i_to df.values.length hnd hlt
  set N := df.values.length with hN
  set P := move_index_to i_from i_to N with hP
  set Q := invPerm P N with hQdef
  have hplen : P.length = N := by rw [hperm.length_eq, List.length_range]
  have hqlen : Q.length = N := invPerm_length P N
  have hqlt : ∀ x ∈ Q, x < N := invPerm_lt P N hperm
  have hqcomp : ∀ i, i < N → P.getD (Q.getD i 0) 0 = i := invPerm_comp P N hperm
  refine ⟨Q, 0, invPerm_nodup P N hperm, hqlt, Nat.zero_le _, ?_⟩
  have hinner : df_reorder_matrix_basis df i_from i_to =
      { values := P.map fun a => reorderL P (df.values.getD a []) 0
        index := reorderL P df.index ""
        columns := reorderL P df.columns "" } := rfl
  rw [hinner]
  have hVlen : (P.map fun b => reorderL P (df.values.getD b []) 0).length = N := by
    rw [List.length_map, hplen]
  show ({ values := (move_index_to Q 0
            (P.map fun b => reorderL P (df.values.getD b []) 0).length).map fun a =>
              reorderL (move_index_to Q 0
                (P.map fun b => reorderL P (df.values.getD b []) 0).length)
                ((P.map fun b => reorderL P (df.values.getD b []) 0).getD a []) 0
          index := reorderL (move_index_to Q 0
            (P.map fun b => reorderL P (df.values.getD b []) 0).length)
            (reorderL P df.index "") ""
          columns := reorderL (move_index_to Q 0
            (P.map fun b => reorderL P (df.values.getD b []) 0).length)
            (reorderL P df.columns "") "" } : DFrame) = df
  have hmove : move_index_to Q 0
      (P.map fun b => reorderL P (df.values.getD b []) 0).length = Q := by
    rw [hVlen]
    exact move_index_to_all Q N (invPerm_surj P N hperm)
  rw [hmove]
  refine dframe_ext _ _ ?_ ?_ ?_
  · show (Q.map fun a =>
        reorderL Q ((P.map fun b => reorderL P (df.values.getD b []) 0).getD a []) 0)
        = df.values
    apply List.ext_getElem
    · rw [List.length_map, hqlen]
    · intro i h1 h2
      have hi : i < N := by rw [hN]; exact h2
      have hiq : i < Q.length := by omega
      rw [List.getElem_map]
      have hQi : Q[i] < N := hqlt _ (List.getElem_mem hiq)
      have hQiV : Q[i] < (P.map fun b => reorderL P (df.values.getD b []) 0).length := by
        omega
      rw [List.getD_eq_getElem _ [] hQiV, List.getElem_map]
      have hQiP : Q[i] < P.length := by omega
      have hPQ : P[Q[i]] = i := by
        have hc := hqcomp i hi
        rw [List.getD_eq_getElem Q 0 hiq, List.getD_eq_getElem P 0 hQiP] at hc
        exact hc
      rw [hPQ]
      have hget : df.values.getD i [] = df.values[i] := List.getD_eq_getElem _ [] h2
      have hrowlen : (df.values.getD i []).length = N := by
        rw [hget, hN]
        exact hrow _ (List.getElem_mem h2)
      rw [reorder_reorder_eq P Q N (df.values.getD i []) 0 hplen hqlen hrowlen
        hqlt hqcomp, hget]
  · exact reorder_reorder_eq P Q N df.index "" hplen hqlen hidx hqlt hqcomp
  · exact reorder_reorder_eq P Q N df.columns "" hplen hqlen hcol hqlt hqcomp

/-- C1 witness: the round trip instantiated at a concrete `3 × 3` labeled
matrix with `i_from = [0]`, `i_to = 1`. -/
theorem C1_reorder_roundtrip_witness :
    ∃ (j_from : List ℕ) (j_to : ℕ),
      j_from.Nodup ∧
        (∀ x ∈ j_from,
          x < (DFrame.mk [[1, 2, 3], [4, 5, 6], [7, 8, 9]]
            ["r0", "r1", "r2"] ["c0", "c1", "c2"]).values.length) ∧
        j_to ≤ (DFrame.mk [[1, 2, 3], [4, 5, 6], [7, 8, 9]]
            ["r0", "r1", "r2"] ["c0", "c1", "c2"]).values.length - j_from.length ∧
        df_reorder_matrix_basis
          (df_reorder_matrix_basis
            (DFrame.mk [[1, 2, 3], [4, 5, 6], [7, 8, 9]]
              ["r0", "r1", "r2"] ["c0", "c1", "c2"]) [0] 1)
          j_from j_to =
          DFrame.mk [[1, 2, 3], [4, 5, 6], [7, 8, 9]]
            ["r0", "r1", "r2"] ["c0", "c1", "c2"] :=
  C1_reorder_roundtrip
    (DFrame.mk [[1, 2, 3], [4, 5, 6], [7, 8, 9]]
      ["r0", "r1", "r2"] ["c0", "c1", "c2"]) [0] 1
    (by decide) (by decide) (by decide) (by decide) (by decide) (by decide)

end LumpedCapacitive
